import Mathlib

/-!
Verification of the LaTeX CV micro-parser (`scripts/cv_parser.py` and
`scripts/cv_utils/regex_parsing.py`) against its specification.

Python strings are modelled as `List Char` (Python `str` is a sequence of
code points, as is `String.data`).  Regular-expression substitutions used by
the source are each embedded as an explicit scanner with the exact
semantics of the corresponding pattern: scan left to right, replace the
leftmost match, continue scanning after the replaced span.  All patterns in
the source match at least one character, so a fuel argument bounded by the
input length makes every scanner total.  `\s` in CPython matches (for the
ASCII range) the six characters space, tab, newline, carriage return,
vertical tab and form feed; source documents are ASCII, so this is the set
used throughout.
-/

namespace CvParser

/-- Whitespace per Python `\s` / `str.strip()` (ASCII range). -/
def pyIsSpace (c : Char) : Bool :=
  c = ' ' || c = '\t' || c = '\n' || c = '\x0d' || c = '\x0b' || c = '\x0c'

/-- The three-character whitespace set `' \t\n'` used by the argument-skipping
loop in `parse_experience_tex` / `parse_cventries_generic_tex`. -/
def isArgWs (c : Char) : Bool :=
  c = ' ' || c = '\t' || c = '\n'

/-- Literal prefix test on character lists. -/
def litHead : List Char → List Char → Bool
  | [], _ => true
  | _ :: _, [] => false
  | p :: ps, c :: cs => p = c && litHead ps cs

/-- Python `str.lstrip()` (default whitespace). -/
def pyLstrip (s : List Char) : List Char := s.dropWhile pyIsSpace

/-- Python `str.rstrip()` (default whitespace). -/
def pyRstrip (s : List Char) : List Char := (s.reverse.dropWhile pyIsSpace).reverse

/-- Python `str.strip()` (default whitespace). -/
def pyStrip (s : List Char) : List Char := pyRstrip (pyLstrip s)

/-- `_extract_balanced_braces`, the loop body: walk the text from the opening
brace, incrementing the depth on `{` and decrementing on `}`; when the depth
returns to zero the accumulated result is returned; characters are appended
to the result only when the depth is positive and the character is not itself
a brace (source lines 94-103).  Falling off the end returns the accumulator
(source line 105). -/
def ebLoop : List Char → Int → List Char → List Char
  | [], _, acc => acc
  | c :: rest, depth, acc =>
    if c = '{' then ebLoop rest (depth + 1) acc
    else if c = '}' then
      if depth - 1 = 0 then acc else ebLoop rest (depth - 1) acc
    else if 0 < depth then ebLoop rest depth (acc ++ [c])
    else ebLoop rest depth acc

/-- `CVParser._extract_balanced_braces(text, start_pos)` on character lists:
returns `""` when `start_pos` is out of range or does not point at `{`
(source lines 88-89), otherwise runs the depth-counting loop from
`start_pos`. -/
def extractBalancedBracesL (text : List Char) (startPos : Nat) : List Char :=
  if startPos < text.length ∧ text[startPos]? = some '{' then
    ebLoop (text.drop startPos) 0 []
  else []

/-- String-level wrapper keeping the source's name. -/
def extract_balanced_braces (text : String) (startPos : Nat) : String :=
  ⟨extractBalancedBracesL text.data startPos⟩

/-! ### A scanner framework for the source's `re.sub` calls

`subScan tryM` scans left to right; at each position it asks `tryM` whether
the pattern matches there; on a match it emits the replacement and resumes
after the matched span (CPython `re.sub` semantics for the non-overlapping
patterns used by the source, none of which can match the empty string).
The fuel starts at the input length; every match consumes at least one
character, so the fuel never runs out on the instantiations below. -/

def subScan (tryM : List Char → Option (List Char × List Char)) :
    Nat → List Char → List Char
  | 0, s => s
  | _ + 1, [] => []
  | fuel + 1, c :: rest =>
    match tryM (c :: rest) with
    | some (rep, rest2) => rep ++ subScan tryM fuel rest2
    | none => c :: subScan tryM fuel rest

/-- Run a substitution scanner over a whole string. -/
def runSub (tryM : List Char → Option (List Char × List Char))
    (s : List Char) : List Char :=
  subScan tryM s.length s

/-- Matcher for a literal pattern (also the semantics of `str.replace`). -/
def tryLit (pat rep s : List Char) : Option (List Char × List Char) :=
  if pat ≠ [] ∧ litHead pat s then some (rep, s.drop pat.length) else none

/-- Matcher for an alternation of literal patterns, tried in order. -/
def tryAlts (pats : List (List Char)) (rep s : List Char) :
    Option (List Char × List Char) :=
  match pats with
  | [] => none
  | p :: ps =>
    match tryLit p rep s with
    | some r => some r
    | none => tryAlts ps rep s

/-- Matcher for `\cmd{inner}` where `inner` has no `}` (the source's
`\\textbf\{([^}]+)\}`-style patterns); `allowEmpty` distinguishes `[^}]*`
from `[^}]+`.  Replaces the match with `pre ++ inner ++ post`. -/
def tryCmdWrap (cmd : List Char) (allowEmpty : Bool) (pre post s : List Char) :
    Option (List Char × List Char) :=
  if litHead cmd s then
    match s.drop cmd.length with
    | '{' :: t =>
      let inner := t.takeWhile (fun c => c ≠ '}')
      if allowEmpty ∨ inner ≠ [] then
        match t.drop inner.length with
        | '}' :: t2 => some (pre ++ inner ++ post, t2)
        | _ => none
      else none
    | _ => none
  else none

/-- Matcher for `\{(\s*sep?\s*)\}` replaced by its group (source line 57). -/
def tryBraceSpacing (sep : Char) (s : List Char) :
    Option (List Char × List Char) :=
  match s with
  | '{' :: t =>
    let ws1 := t.takeWhile pyIsSpace
    match t.drop ws1.length with
    | c :: t2 =>
      if c = sep then
        let ws2 := t2.takeWhile pyIsSpace
        match t2.drop ws2.length with
        | '}' :: t3 => some (ws1 ++ c :: ws2, t3)
        | _ => none
      else if c = '}' then some (ws1, t2)
      else none
    | [] => none
  | _ => none

/-- ASCII letter, per the `[a-zA-Z]` class. -/
def pyIsAlpha (c : Char) : Bool :=
  ('a' ≤ c ∧ c ≤ 'z') ∨ ('A' ≤ c ∧ c ≤ 'Z')

/-- Consume an optional delimited group `op [^cl]* cl`; if the group is not
present or unterminated the input is returned unchanged (the regex engine
then simply drops the optional group). -/
def optGroup (op cl : Char) (s : List Char) : List Char :=
  match s with
  | c :: t =>
    if c = op then
      let inner := t.takeWhile (fun x => x ≠ cl)
      match t.drop inner.length with
      | c2 :: t2 => if c2 = cl then t2 else s
      | [] => s
    else s
  | [] => s

/-- Matcher for `\\(?![%_\$&])[a-zA-Z]+(\[[^\]]*\])?(\{[^}]*\})?` (source
line 61), which deletes a backslash command together with at most one
bracket and one brace group. -/
def tryCmdRemoval (s : List Char) : Option (List Char × List Char) :=
  match s with
  | '\\' :: t =>
    match t with
    | c :: _ =>
      if c = '%' ∨ c = '_' ∨ c = '$' ∨ c = '&' then none
      else
        let letters := t.takeWhile pyIsAlpha
        if letters = [] then none
        else some ([], optGroup '{' '}' (optGroup '[' ']' (t.drop letters.length)))
    | [] => none
  | _ => none

/-- Matcher for `\s+`, replaced by `rep`. -/
def trySpaceRun (rep s : List Char) : Option (List Char × List Char) :=
  match s with
  | c :: _ => if pyIsSpace c then some (rep, s.dropWhile pyIsSpace) else none
  | [] => none

/-- Matcher for `\s*sep\s*`, replaced by `' ' sep ' '` (source line 71). -/
def trySepSpacing (sep : Char) (s : List Char) :
    Option (List Char × List Char) :=
  let ws1 := s.takeWhile pyIsSpace
  match s.drop ws1.length with
  | c :: t2 =>
    if c = sep then some ([' ', sep, ' '], t2.dropWhile pyIsSpace) else none
  | [] => none

/-! ### `clean_latex_text` (`cv_utils/regex_parsing.py`, lines 8-73) -/

/-- The separator glyph the source file contains (the mojibake character
U+8DEF, committed verbatim in `regex_parsing.py`). -/
def sepChar : Char := '路'

/-- The reversible placeholder for an escaped percent (source line 18). -/
def PERCENT_PLACEHOLDER : List Char := ("<<PERCENT_SIGN_PLACEHOLDER>>").data

/-- Count of backslashes immediately preceding index `i` (the inner
`while j >= 0 and line[j] == '\\'` loop of `remove_latex_comment`). -/
def bsBefore (line : List Char) (i : Nat) : Nat :=
  ((line.take i).reverse.takeWhile (fun c => c = '\\')).length

/-- The scanning loop of `remove_latex_comment` (source lines 26-38): walk
`i` upward; at the first `%` preceded by an even number of backslashes,
return the prefix before it right-stripped; otherwise return the line.  The
fuel argument makes the recursion structural; it is initialised to
`line.length + 1`, which bounds the number of loop iterations. -/
def rlcAux (line : List Char) : Nat → Nat → List Char
  | 0, _ => line
  | fuel + 1, i =>
    if h : i < line.length then
      if line.get ⟨i, h⟩ = '%' ∧ bsBefore line i % 2 = 0 then pyRstrip (line.take i)
      else rlcAux line fuel (i + 1)
    else line

/-- `remove_latex_comment(line)` from `clean_latex_text`. -/
def remove_latex_commentL (line : List Char) : List Char :=
  rlcAux line (line.length + 1) 0

/-- Python `str.splitlines()` restricted to the `\n`, `\r`, `\r\n`
terminators (the only ones occurring in the repository's documents); note a
trailing terminator produces no trailing empty line. -/
def pySplitlinesAux : Nat → List Char → List (List Char)
  | _, [] => []
  | 0, s => [s]
  | fuel + 1, s =>
    let line := s.takeWhile (fun c => c ≠ '\n' ∧ c ≠ '\x0d')
    match s.drop line.length with
    | [] => [line]
    | '\x0d' :: '\n' :: t => line :: pySplitlinesAux fuel t
    | _ :: t => line :: pySplitlinesAux fuel t

/-- Python `str.splitlines()`. -/
def pySplitlines (s : List Char) : List (List Char) :=
  pySplitlinesAux s.length s

/-- `clean_latex_text(text, convert_bold_italic, handle_today)` on character
lists, following the source line by line.  `today` stands for the value of
`date.today().strftime('%B %d, %Y')`, injected as a parameter to keep the
function pure (it is only consulted when `handleToday` is true). -/
def clean_latex_textL (convertBoldItalic handleToday : Bool)
    (today : List Char) (text : List Char) : List Char :=
  let t1 := runSub (tryLit ("\\%").data PERCENT_PLACEHOLDER) text
  let t2 := runSub (tryLit ("\\_").data ("_").data) t1
  let t3 := runSub (tryLit ("\\$").data ("$").data) t2
  let t4 := runSub (tryLit ("\\&").data ("&").data) t3
  let t5 := List.intercalate ("\n").data
    ((pySplitlines t4).map remove_latex_commentL)
  let t6 := runSub (tryLit PERCENT_PLACEHOLDER ("%").data) t5
  let t7 :=
    if convertBoldItalic then
      runSub (tryCmdWrap ("\\emph").data false ("*").data ("*").data)
        (runSub (tryCmdWrap ("\\textit").data false ("*").data ("*").data)
          (runSub (tryCmdWrap ("\\textbf").data false ("**").data ("**").data) t6))
    else
      runSub (tryCmdWrap ("\\emph").data false [] [])
        (runSub (tryCmdWrap ("\\textit").data false [] [])
          (runSub (tryCmdWrap ("\\textbf").data false [] []) t6))
  let t8 := runSub
    (tryAlts [("\\enskip").data, ("\\quad").data, ("\\qquad").data, ("~").data] [' ']) t7
  let t9 := runSub (tryLit ("\\cdotp").data [sepChar]) t8
  let t10 := runSub (tryBraceSpacing sepChar) t9
  let t11 := runSub tryCmdRemoval t10
  let t12 := runSub (tryLit ("\x7b\x7d").data []) t11
  let t13 := if handleToday then runSub (tryLit ("\\today").data today) t12 else t12
  let t14 := runSub (trySpaceRun [' ']) t13
  let t15 := runSub (trySepSpacing sepChar) t14
  pyStrip t15

/-- String-level `clean_latex_text` keeping the source's name. -/
def clean_latex_text (convertBoldItalic handleToday : Bool)
    (today text : String) : String :=
  ⟨clean_latex_textL convertBoldItalic handleToday today.data text.data⟩

/-! ### `normalize_company` / `normalize_dates` (`regex_parsing.py`, 76-88) -/

/-- Matcher for `\s*-{2,}\s*`, replaced by `" - "`. -/
def tryDashRun (s : List Char) : Option (List Char × List Char) :=
  let ws1 := s.takeWhile pyIsSpace
  let t := s.drop ws1.length
  let dashes := t.takeWhile (fun c => c = '-')
  if 2 ≤ dashes.length then
    some ((" - ").data, (t.drop dashes.length).dropWhile pyIsSpace)
  else none

/-- Case-insensitive literal prefix test (`re.IGNORECASE`, ASCII range). -/
def litHeadCI : List Char → List Char → Bool
  | [], _ => true
  | _ :: _, [] => false
  | p :: ps, c :: cs => p.toLower = c.toLower && litHeadCI ps cs

/-- Matcher for a case-insensitive literal pattern. -/
def tryCI (pat rep s : List Char) : Option (List Char × List Char) :=
  if pat ≠ [] ∧ litHeadCI pat s then some (rep, s.drop pat.length) else none

/-- Matcher for `\s+-\s+Ministry of the\s+` (case-insensitive), replaced by
`" - "` (source line 79). -/
def tryMinistry (s : List Char) : Option (List Char × List Char) :=
  let ws1 := s.takeWhile pyIsSpace
  if ws1 = [] then none
  else
    match s.drop ws1.length with
    | '-' :: t =>
      let ws2 := t.takeWhile pyIsSpace
      if ws2 = [] then none
      else
        let t2 := t.drop ws2.length
        if litHeadCI ("Ministry of the").data t2 then
          let t3 := t2.drop 15
          let ws3 := t3.takeWhile pyIsSpace
          if ws3 = [] then none else some ((" - ").data, t3.drop ws3.length)
        else none
    | _ => none

/-- `normalize_company(company)` on character lists (source lines 76-80). -/
def normalize_companyL (company : List Char) : List Char :=
  pyStrip (runSub tryMinistry (runSub tryDashRun company))

/-- `normalize_dates(dates, present_year)` on character lists (source lines
83-88): dash runs collapsed, `Present` case-insensitively replaced by the
sentinel year, then all whitespace removed. -/
def normalize_datesL (presentYear dates : List Char) : List Char :=
  runSub (trySpaceRun [])
    (runSub (tryCI ("Present").data presentYear) (runSub tryDashRun dates))

/-- `normalize_company`, string level. -/
def normalize_company (company : String) : String :=
  ⟨normalize_companyL company.data⟩

/-- `normalize_dates` at the default sentinel `present_year='2024'` (all
callers use the default), string level. -/
def normalize_dates (dates : String) : String :=
  ⟨normalize_datesL ("2024").data dates.data⟩

/-! ### `CVParser._clean_text` (`cv_parser.py`, lines 68-76) -/

/-- `_clean_text(text)` on character lists: unwrap `\textbf{...}` (here with
`[^}]*`, so an empty body is allowed), unescape `\&`, `\%`, `\$`, delete
`\end{cvitems}`, collapse whitespace and strip. -/
def clean_textL (text : List Char) : List Char :=
  let t1 := runSub (tryCmdWrap ("\\textbf").data true [] []) text
  let t2 := runSub (tryLit ("\\&").data ("&").data) t1
  let t3 := runSub (tryLit ("\\%").data ("%").data) t2
  let t4 := runSub (tryLit ("\\$").data ("$").data) t3
  let t5 := runSub (tryLit ("\\end\x7bcvitems\x7d").data []) t4
  pyStrip (runSub (trySpaceRun [' ']) t5)

/-- `_clean_text`, string level. -/
def clean_text (text : String) : String := ⟨clean_textL text.data⟩

/-! ### The `\cventry` scanner shared by `parse_experience_tex` (lines
107-160) and `parse_cventries_generic_tex` (lines 211-272); the two source
methods contain the identical scanning code. -/

/-- Skip characters satisfying `p` starting at index `i`, returning the
first index at which `p` fails (or the length). -/
def skipFrom (p : Char → Bool) (text : List Char) (i : Nat) : Nat :=
  i + ((text.drop i).takeWhile p).length

/-- End positions of the matches of `\\cventry\s*%?\s*` (`re.finditer`,
non-overlapping, left to right; the pattern consumes maximal whitespace, an
optional `%`, and maximal whitespace again). -/
def cventryEndsAux (text : List Char) : Nat → Nat → List Nat
  | 0, _ => []
  | fuel + 1, i =>
    if litHead ("\\cventry").data (text.drop i) then
      let j1 := skipFrom pyIsSpace text (i + 8)
      let j2 := if text[j1]? = some '%' then j1 + 1 else j1
      let e := skipFrom pyIsSpace text j2
      e :: cventryEndsAux text fuel e
    else if i < text.length then cventryEndsAux text fuel (i + 1)
    else []

/-- All `\cventry` match-end positions of a document. -/
def cventryEnds (text : List Char) : List Nat :=
  cventryEndsAux text (text.length + 1) 0

/-- The argument-collection loop (source lines 122-135): up to `k` times,
skip `' '`/`'\t'`/`'\n'`, stop unless the cursor sits on `{`, extract the
braced argument, store it stripped, and advance the cursor by the
*unstripped* extracted length plus 2. -/
def collectArgs (text : List Char) : Nat → Nat → List (List Char)
  | 0, _ => []
  | k + 1, pos =>
    let p := skipFrom isArgWs text pos
    if p < text.length ∧ text[p]? = some '{' then
      let a := extractBalancedBracesL text p
      pyStrip a :: collectArgs text k (p + a.length + 2)
    else []

/-- Lookahead `(?=\\item|\\end|$)` of the bullet-item pattern; under
`re.DOTALL` without `re.MULTILINE`, `$` matches at the end of the string or
just before a final newline. -/
def itemLookahead (s : List Char) : Bool :=
  litHead ("\\item").data s || litHead ("\\end").data s ||
    s = [] || s = ['\n']

/-- The lazy body `(.*?)` of the bullet-item pattern: everything up to the
first position where the lookahead holds. -/
def takeUntilLA : List Char → List Char
  | [] => []
  | c :: rest => if itemLookahead (c :: rest) then [] else c :: takeUntilLA rest

/-- `re.findall(r'\\item\s+(.*?)(?=\\item|\\end|$)', block, re.DOTALL)`:
each match consumes `\item`, at least one whitespace character (maximal
run), then the lazy body; scanning resumes at the match end. -/
def findItemsAux : Nat → List Char → List (List Char)
  | 0, _ => []
  | _ + 1, [] => []
  | fuel + 1, c :: rest =>
    if litHead ("\\item").data (c :: rest) then
      let t := (c :: rest).drop 5
      let ws := t.takeWhile pyIsSpace
      if ws = [] then findItemsAux fuel rest
      else
        let body := takeUntilLA (t.drop ws.length)
        body :: findItemsAux fuel ((t.drop ws.length).drop body.length)
    else findItemsAux fuel rest

/-- All bullet-item bodies of an items block. -/
def itemsOf (block : List Char) : List (List Char) :=
  findItemsAux block.length block

/-- The experience parser's bullet filter (source lines 145-148): keep a
cleaned item only when it is nonempty and strictly longer than 10. -/
def achievementsOf (block : List Char) : List String :=
  (itemsOf block).filterMap (fun it =>
    if clean_textL it ≠ [] ∧ 10 < (clean_textL it).length
    then some ⟨clean_textL it⟩ else none)

/-- The generic parser's bullet filter (source lines 257-260): additionally
requires the cleaned item to contain no `[`. -/
def genericItemsOf (block : List Char) : List String :=
  (itemsOf block).filterMap (fun it =>
    if clean_textL it ≠ [] ∧ 10 < (clean_textL it).length ∧ '[' ∉ clean_textL it
    then some ⟨clean_textL it⟩ else none)

/-! ### Record types -/

/-- A job record as built by `parse_experience_tex`. -/
structure Job where
  titles : List String
  company : String
  location : String
  dates : String
  achievements : List String
deriving DecidableEq, Repr, Inhabited

/-- A generic entry as built by `parse_cventries_generic_tex`. -/
structure GenEntry where
  title : String
  organization : String
  location : String
  dates : String
  items : List String
deriving DecidableEq, Repr, Inhabited

/-- An honor record as built by `parse_cvhonors_tex`. -/
structure Honor where
  name : String
  organization : String
  location : String
  date : String
deriving DecidableEq, Repr, Inhabited

/-! ### The parsers -/

/-- One `\cventry` occurrence of `parse_experience_tex` (source lines
118-158): a record is produced exactly when five arguments are collected;
no placeholder filtering is performed here. -/
def jobAt (text : List Char) (pos : Nat) : Option Job :=
  match collectArgs text 5 pos with
  | [role, company, location, dates, itemsBlock] =>
    some { titles := [⟨clean_textL role⟩],
           company := normalize_company ⟨clean_textL company⟩,
           location := ⟨clean_textL location⟩,
           dates := ⟨clean_textL dates⟩,
           achievements := achievementsOf itemsBlock }
  | _ => none

/-- `parse_experience_tex(content)` (character-list level). -/
def parse_experience_texL (content : List Char) : List Job :=
  (cventryEnds content).filterMap (jobAt content)

/-- `parse_experience_tex`, string level. -/
def parse_experience_tex (content : String) : List Job :=
  parse_experience_texL content.data

/-- One `\cventry` occurrence of `parse_cventries_generic_tex` (source lines
226-270): same scan, but an occurrence whose raw (stripped) title contains
`[` or is empty is skipped, the organization is *not* normalized, and items
containing `[` are dropped. -/
def genEntryAt (text : List Char) (pos : Nat) : Option GenEntry :=
  match collectArgs text 5 pos with
  | [title, organization, location, dates, itemsBlock] =>
    if '[' ∈ title ∨ title = [] then none
    else
      some { title := ⟨clean_textL title⟩,
             organization := ⟨clean_textL organization⟩,
             location := ⟨clean_textL location⟩,
             dates := ⟨clean_textL dates⟩,
             items := genericItemsOf itemsBlock }
  | _ => none

/-- `parse_cventries_generic_tex(content)` (character-list level). -/
def parse_cventries_generic_texL (content : List Char) : List GenEntry :=
  (cventryEnds content).filterMap (genEntryAt content)

/-- `parse_cventries_generic_tex`, string level. -/
def parse_cventries_generic_tex (content : String) : List GenEntry :=
  parse_cventries_generic_texL content.data

/-- Read `\s*\{([^}]*)\}` at index `j`: the group and the index after the
closing brace. -/
def readBracedArg (text : List Char) (j : Nat) : Option (List Char × Nat) :=
  let p := skipFrom pyIsSpace text j
  if text[p]? = some '{' then
    let inner := (text.drop (p + 1)).takeWhile (fun c => c ≠ '}')
    let q := p + 1 + inner.length
    if text[q]? = some '}' then some (inner, q + 1) else none
  else none

/-- Matches of `\\cvhonor\s*\{([^}]*)\}\s*\{([^}]*)\}\s*\{([^}]*)\}\s*\{([^}]*)\}`
(`re.finditer`): on a failed occurrence the engine restarts one character
later; on success scanning resumes after the match. -/
def cvhonorMatchesAux (text : List Char) :
    Nat → Nat → List (List Char × List Char × List Char × List Char)
  | 0, _ => []
  | fuel + 1, i =>
    if litHead ("\\cvhonor").data (text.drop i) then
      match readBracedArg text (i + 8) with
      | some (g1, p1) =>
        match readBracedArg text p1 with
        | some (g2, p2) =>
          match readBracedArg text p2 with
          | some (g3, p3) =>
            match readBracedArg text p3 with
            | some (g4, p4) => (g1, g2, g3, g4) :: cvhonorMatchesAux text fuel p4
            | none => cvhonorMatchesAux text fuel (i + 1)
          | none => cvhonorMatchesAux text fuel (i + 1)
        | none => cvhonorMatchesAux text fuel (i + 1)
      | none => cvhonorMatchesAux text fuel (i + 1)
    else if i < text.length then cvhonorMatchesAux text fuel (i + 1)
    else []

/-- All `\cvhonor` matches of a document. -/
def cvhonorMatches (text : List Char) :
    List (List Char × List Char × List Char × List Char) :=
  cvhonorMatchesAux text (text.length + 1) 0

/-- One `\cvhonor` match of `parse_cvhonors_tex` (source lines 192-207):
the cleaned name decides the placeholder skip. -/
def honorOf (g : List Char × List Char × List Char × List Char) : Option Honor :=
  if '[' ∈ clean_textL g.1 ∨ clean_textL g.1 = [] then none
  else
    some { name := ⟨clean_textL g.1⟩,
           organization := ⟨clean_textL g.2.1⟩,
           location := ⟨clean_textL g.2.2.1⟩,
           date := ⟨clean_textL g.2.2.2⟩ }

/-- `parse_cvhonors_tex(content)` (character-list level). -/
def parse_cvhonors_texL (content : List Char) : List Honor :=
  (cvhonorMatches content).filterMap honorOf

/-- `parse_cvhonors_tex`, string level. -/
def parse_cvhonors_tex (content : String) : List Honor :=
  parse_cvhonors_texL content.data

/-! ### `merge_jobs` (`cv_parser.py`, lines 383-420) -/

/-- `list(dict.fromkeys(xs))`: keep the first occurrence of each element,
in insertion order. -/
def pyDedupKeepFirst (l : List String) : List String :=
  l.foldl (fun acc x => if x ∈ acc then acc else acc ++ [x]) []

/-- Append `j` to the group of key `k` of an insertion-ordered association
list, creating the group at the end if absent — one step of the
`defaultdict(list)` grouping loop. -/
def insertGrp (acc : List (String × List Job)) (k : String) (j : Job) :
    List (String × List Job) :=
  match acc with
  | [] => [(k, [j])]
  | (k2, js) :: rest =>
    if k2 = k then (k2, js ++ [j]) :: rest else (k2, js) :: insertGrp rest k j

/-- The `defaultdict(list)` grouping loop: `for job in jobs:
groups[key(job)].append(job)`, iterated in insertion order. -/
def groupByKey (key : Job → String) (jobs : List Job) : List (String × List Job) :=
  jobs.foldl (fun acc j => insertGrp acc (key j) j) []

/-- Merging one `(company, dates)` bucket (source lines 400-417): a
singleton passes through unchanged; otherwise the first record keeps its
scalar fields and receives the concatenated, first-occurrence-deduplicated
title and achievement lists. -/
def mergeGroup : List Job → List Job
  | [] => []
  | [j] => [j]
  | j :: j2 :: rest =>
    [{ j with
        titles := pyDedupKeepFirst ((j :: j2 :: rest).flatMap (fun x => x.titles)),
        achievements :=
          pyDedupKeepFirst ((j :: j2 :: rest).flatMap (fun x => x.achievements)) }]

/-- Python string `<`: lexicographic on code points. -/
def pyStrLt : List Char → List Char → Bool
  | [], [] => false
  | [], _ :: _ => true
  | _ :: _, [] => false
  | a :: xs, b :: ys =>
    if a.val < b.val then true else if b.val < a.val then false else pyStrLt xs ys

/-- Insert into a sorted list, before the first element `y` with `le x y`;
on ties `x` is placed first. -/
def insertLe (le : Job → Job → Bool) (x : Job) : List Job → List Job
  | [] => [x]
  | y :: ys => if le x y then x :: y :: ys else y :: insertLe le x ys

/-- Stable insertion sort.  An element is inserted before the first already
placed element it compares `le` to; since it originally preceded every
element it is inserted into, ties keep their original order. -/
def stableSort (le : Job → Job → Bool) : List Job → List Job
  | [] => []
  | x :: xs => insertLe le x (stableSort le xs)

/-- `sorted(merged, key=lambda x: x["dates"], reverse=True)`: Python's
`sorted` is a stable sort, and for a fixed total comparison every stable
sorting algorithm computes the same output list, so a structural insertion
sort embeds it faithfully.  The comparison is `a.dates >= b.dates` on raw
code-point order, giving the stable descending sort `reverse=True`
performs. -/
def sortDatesDesc (l : List Job) : List Job :=
  stableSort (fun a b => ! pyStrLt a.dates.data b.dates.data) l

/-- The `merged` list of `merge_jobs` before sorting: group by the (already
normalized) company field, then by the normalized dates key, and merge each
bucket. -/
def mergedGroups (jobs : List Job) : List Job :=
  (groupByKey (fun j => j.company) jobs).flatMap (fun g =>
    (groupByKey (fun j => normalize_dates j.dates) g.2).flatMap
      (fun dg => mergeGroup dg.2))

/-- `merge_jobs(jobs)`: the merged buckets, sorted by raw dates descending. -/
def merge_jobs (jobs : List Job) : List Job :=
  sortDatesDesc (mergedGroups jobs)

/-! ### Specification-side notions used by the theorems -/

/-- Keep the first occurrence of each string, in order — the
specification's "union the lists in first-seen order, deduplicating exact
string repeats". -/
def firstOccurrences : List String → List String
  | [] => []
  | x :: xs => x :: firstOccurrences (xs.filter (fun y => y ≠ x))
termination_by l => l.length
decreasing_by
  simp only [List.length_cons]
  exact Nat.lt_succ_of_le (List.length_filter_le _ _)

/-- The specification's comment-start condition: a `%` at index `i` preceded
by an even number of backslashes. -/
def unescapedPercentAt (cs : List Char) (i : Nat) : Prop :=
  (cs[i]? = some '%') ∧ bsBefore cs i % 2 = 0

instance (cs : List Char) (i : Nat) : Decidable (unescapedPercentAt cs i) := by
  unfold unescapedPercentAt; infer_instance

/-- A job belongs to the merge bucket of company `c` and normalized date
key `k`. -/
def inBucket (c k : String) (j : Job) : Prop :=
  j.company = c ∧ normalize_dates j.dates = k

instance (c k : String) : DecidablePred (inBucket c k) := fun _ => by
  unfold inBucket; infer_instance

/-- All jobs of one `(company, normalized date key)` merge bucket, in input
order. -/
def bucket (jobs : List Job) (c k : String) : List Job :=
  jobs.filter (fun j => inBucket c k j)

/-- The field renaming between the two `\cventry` extractors: `titles[0]`
becomes `title`, `achievements` becomes `items`. -/
def jobToEntry (j : Job) : GenEntry :=
  { title := j.titles.headD "", organization := j.company,
    location := j.location, dates := j.dates, items := j.achievements }

end CvParser

namespace CvParser

/-! ### Lemmas about the first-occurrence deduplication -/

theorem mem_firstOccurrences {y : String} : ∀ {l : List String},
    y ∈ firstOccurrences l ↔ y ∈ l := by
  intro l
  induction l using firstOccurrences.induct with
  | case1 => simp [firstOccurrences]
  | case2 x xs ih =>
    rw [firstOccurrences]
    by_cases hy : y = x
    · subst hy; simp
    · simp only [List.mem_cons, ih, List.mem_filter]
      constructor
      · rintro (rfl | ⟨h, _⟩)
        · exact Or.inl rfl
        · exact Or.inr h
      · rintro (rfl | h2)
        · exact Or.inl rfl
        · exact Or.inr ⟨h2, by simpa using hy⟩

theorem nodup_firstOccurrences : ∀ (l : List String),
    (firstOccurrences l).Nodup := by
  intro l
  induction l using firstOccurrences.induct with
  | case1 => simp [firstOccurrences]
  | case2 x xs ih =>
    rw [firstOccurrences]
    refine List.nodup_cons.mpr ⟨fun hx => ?_, ih⟩
    have := (mem_firstOccurrences.mp hx)
    simp only [List.mem_filter] at this
    simpa using this.2

theorem pyDedupKeepFirst_go : ∀ (l acc : List String),
    l.foldl (fun acc x => if x ∈ acc then acc else acc ++ [x]) acc =
      acc ++ firstOccurrences (l.filter (fun x => x ∉ acc)) := by
  intro l
  induction l with
  | nil => intro acc; simp [firstOccurrences]
  | cons x xs ih =>
    intro acc
    by_cases hx : x ∈ acc
    · simp only [List.foldl_cons, if_pos hx, ih, List.filter_cons]
      have : (x ∉ acc) = False := by simp [hx]
      simp [hx]
    · simp only [List.foldl_cons, if_neg hx, ih]
      have h1 : (x :: xs).filter (fun y => y ∉ acc) =
          x :: xs.filter (fun y => y ∉ acc) := by
        simp [List.filter_cons, hx]
      rw [h1, firstOccurrences]
      have h2 : (xs.filter (fun y => y ∉ acc)).filter (fun y => y ≠ x) =
          xs.filter (fun y => y ∉ acc ++ [x]) := by
        rw [List.filter_filter]
        refine List.filter_congr (fun y _ => ?_)
        by_cases h3 : y = x <;> by_cases h4 : y ∈ acc <;> simp [h3, h4]
      rw [h2]
      simp [List.append_assoc]

/-- The `dict.fromkeys` deduplication computes exactly the first-occurrence
sublist. -/
theorem pyDedupKeepFirst_eq_firstOccurrences (l : List String) :
    pyDedupKeepFirst l = firstOccurrences l := by
  have := pyDedupKeepFirst_go l []
  simpa [pyDedupKeepFirst] using this

theorem nodup_pyDedupKeepFirst (l : List String) :
    (pyDedupKeepFirst l).Nodup := by
  rw [pyDedupKeepFirst_eq_firstOccurrences]; exact nodup_firstOccurrences l

theorem mem_pyDedupKeepFirst {y : String} {l : List String} :
    y ∈ pyDedupKeepFirst l ↔ y ∈ l := by
  rw [pyDedupKeepFirst_eq_firstOccurrences]; exact mem_firstOccurrences

/-! ### Characterization of the `defaultdict(list)` grouping -/

theorem insertGrp_keys (acc : List (String × List Job)) (k : String) (j : Job) :
    (insertGrp acc k j).map Prod.fst =
      if k ∈ acc.map Prod.fst then acc.map Prod.fst else acc.map Prod.fst ++ [k] := by
  induction acc with
  | nil => simp [insertGrp]
  | cons p rest ih =>
    obtain ⟨k2, js⟩ := p
    by_cases hk : k2 = k
    · subst hk; simp [insertGrp]
    · have hiff : (k ∈ ((k2, js) :: rest).map Prod.fst) ↔ k ∈ rest.map Prod.fst := by
        simp only [List.map_cons, List.mem_cons]
        constructor
        · rintro (h | h)
          · exact absurd h.symm hk
          · exact h
        · exact Or.inr
      have hL : insertGrp ((k2, js) :: rest) k j = (k2, js) :: insertGrp rest k j := by
        simp [insertGrp, hk]
      rw [hL, List.map_cons, ih]
      by_cases hm : k ∈ rest.map Prod.fst
      · rw [if_pos hm, if_pos (hiff.mpr hm)]
        simp
      · rw [if_neg hm, if_neg (fun h => hm (hiff.mp h))]
        simp

theorem map_update_of_not_mem (acc : List (String × List Job)) (k : String) (j : Job)
    (h : k ∉ acc.map Prod.fst) :
    acc.map (fun p => if p.1 = k then (p.1, p.2 ++ [j]) else p) = acc := by
  induction acc with
  | nil => rfl
  | cons p rest ih =>
    simp only [List.map_cons, List.mem_cons] at h ⊢
    have h1 : p.1 ≠ k := fun hp => h (Or.inl hp.symm)
    rw [if_neg h1, ih (fun hm => h (Or.inr hm))]

theorem insertGrp_eq (acc : List (String × List Job)) (k : String) (j : Job)
    (hnd : (acc.map Prod.fst).Nodup) :
    insertGrp acc k j =
      if k ∈ acc.map Prod.fst then
        acc.map (fun p => if p.1 = k then (p.1, p.2 ++ [j]) else p)
      else acc ++ [(k, [j])] := by
  induction acc with
  | nil => simp [insertGrp]
  | cons p rest ih =>
    obtain ⟨k2, js⟩ := p
    simp only [List.map_cons, List.nodup_cons] at hnd
    by_cases hk : k2 = k
    · subst hk
      have hrest : k2 ∉ rest.map Prod.fst := hnd.1
      have hcond : k2 ∈ ((k2, js) :: rest).map Prod.fst := by simp
      have hL : insertGrp ((k2, js) :: rest) k2 j = (k2, js ++ [j]) :: rest := by
        simp [insertGrp]
      rw [hL, if_pos hcond, List.map_cons, map_update_of_not_mem rest k2 j hrest]
      simp
    · have hiff : (k ∈ ((k2, js) :: rest).map Prod.fst) ↔ k ∈ rest.map Prod.fst := by
        simp only [List.map_cons, List.mem_cons]
        constructor
        · rintro (h | h)
          · exact absurd h.symm hk
          · exact h
        · exact Or.inr
      have hL : insertGrp ((k2, js) :: rest) k j = (k2, js) :: insertGrp rest k j := by
        simp [insertGrp, hk]
      rw [hL, ih hnd.2]
      by_cases hm : k ∈ rest.map Prod.fst
      · rw [if_pos hm, if_pos (hiff.mpr hm), List.map_cons]
        have h0 : (if ((k2, js) : String × List Job).1 = k then
            (((k2, js) : String × List Job).1, ((k2, js) : String × List Job).2 ++ [j])
            else ((k2, js) : String × List Job)) = (k2, js) := by
          simp [hk]
        rw [h0]
      · rw [if_neg hm, if_neg (fun h => hm (hiff.mp h))]
        simp

theorem groupByKey_append_one (key : Job → String) (l : List Job) (x : Job) :
    groupByKey key (l ++ [x]) = insertGrp (groupByKey key l) (key x) x := by
  simp [groupByKey, List.foldl_append]

theorem groupByKey_keys (key : Job → String) (l : List Job) :
    (groupByKey key l).map Prod.fst = pyDedupKeepFirst (l.map key) := by
  induction l using List.reverseRecOn with
  | nil => rfl
  | append_singleton l x ih =>
    rw [groupByKey_append_one, insertGrp_keys, ih]
    have : pyDedupKeepFirst (List.map key (l ++ [x])) =
        if key x ∈ pyDedupKeepFirst (l.map key) then pyDedupKeepFirst (l.map key)
        else pyDedupKeepFirst (l.map key) ++ [key x] := by
      simp [pyDedupKeepFirst, List.foldl_append]
    rw [this]

theorem groupByKey_keys_nodup (key : Job → String) (l : List Job) :
    ((groupByKey key l).map Prod.fst).Nodup := by
  rw [groupByKey_keys]; exact nodup_pyDedupKeepFirst _

theorem groupByKey_groups (key : Job → String) (l : List Job) :
    ∀ p ∈ groupByKey key l, p.2 = l.filter (fun x => key x = p.1) := by
  induction l using List.reverseRecOn with
  | nil => intro p hp; simp [groupByKey] at hp
  | append_singleton l x ih =>
    intro p hp
    rw [groupByKey_append_one] at hp
    rw [insertGrp_eq _ _ _ (groupByKey_keys_nodup key l)] at hp
    rw [List.filter_append]
    by_cases hk : key x ∈ (groupByKey key l).map Prod.fst
    · rw [if_pos hk] at hp
      obtain ⟨q, hq, hpq⟩ := List.mem_map.mp hp
      by_cases hq1 : q.1 = key x
      · rw [if_pos hq1] at hpq
        have hp1 : p.1 = q.1 := by rw [← hpq]
        have hp2 : p.2 = q.2 ++ [x] := by rw [← hpq]
        have hxf : List.filter (fun y => decide (key y = p.1)) [x] = [x] := by
          simp [hp1, hq1]
        rw [hxf, hp2, ih q hq, hp1]
      · rw [if_neg hq1] at hpq
        have hp1 : p.1 = q.1 := by rw [← hpq]
        have hp2 : p.2 = q.2 := by rw [← hpq]
        have hxf : List.filter (fun y => decide (key y = p.1)) [x] = [] := by
          simp only [List.filter_cons, List.filter_nil]
          rw [if_neg (by simpa [hp1] using fun h => hq1 h.symm)]
        rw [hxf, List.append_nil, hp2, ih q hq, hp1]
    · rw [if_neg hk] at hp
      rcases List.mem_append.mp hp with hmem | hone
      · have hp1 : p.1 ≠ key x := by
          intro h
          exact hk (h ▸ List.mem_map_of_mem Prod.fst hmem)
        have hxf : List.filter (fun y => decide (key y = p.1)) [x] = [] := by
          simp only [List.filter_cons, List.filter_nil]
          rw [if_neg (by simpa using fun h => hp1 h.symm)]
        rw [hxf, List.append_nil]
        exact ih p hmem
      · have hpe : p = (key x, [x]) := by simpa using hone
        have hlf : List.filter (fun y => decide (key y = p.1)) l = [] := by
          rw [List.filter_eq_nil_iff]
          intro y hy hxy
          apply hk
          rw [groupByKey_keys, mem_pyDedupKeepFirst]
          simp only [decide_eq_true_eq, hpe] at hxy
          exact hxy ▸ List.mem_map_of_mem key hy
        have hxf : List.filter (fun y => decide (key y = p.1)) [x] = [x] := by
          simp [hpe]
        rw [hlf, hxf, hpe]
        rfl

theorem groupByKey_key_mem (key : Job → String) (l : List Job) :
    ∀ x ∈ l, key x ∈ (groupByKey key l).map Prod.fst := by
  intro x hx
  rw [groupByKey_keys, mem_pyDedupKeepFirst]
  exact List.mem_map_of_mem key hx

theorem groupByKey_groups_ne_nil (key : Job → String) (l : List Job) :
    ∀ p ∈ groupByKey key l, p.2 ≠ [] := by
  intro p hp
  have h1 : p.1 ∈ (groupByKey key l).map Prod.fst := List.mem_map_of_mem Prod.fst hp
  rw [groupByKey_keys, mem_pyDedupKeepFirst] at h1
  obtain ⟨x, hx, hkx⟩ := List.mem_map.mp h1
  rw [groupByKey_groups key l p hp]
  intro hnil
  have : x ∈ List.filter (fun y => decide (key y = p.1)) l := by
    simp [List.mem_filter, hx, hkx]
  rw [hnil] at this
  exact absurd this (List.not_mem_nil x)

/-! ### Counting, permutation and bucket lemmas for `merge_jobs` -/

theorem countP_flatMap {α β : Type} (p : β → Bool) (l : List α) (f : α → List β) :
    (l.flatMap f).countP p = (l.map (fun a => (f a).countP p)).sum := by
  induction l with
  | nil => simp
  | cons a l ih => simp [List.flatMap_cons, List.countP_append, ih]

theorem sum_map_ite_one {α : Type} (P : α → Prop) [DecidablePred P] (l : List α) :
    (l.map (fun a => if P a then 1 else 0)).sum = l.countP (fun a => decide (P a)) := by
  induction l with
  | nil => simp
  | cons a l ih =>
    simp only [List.map_cons, List.sum_cons, ih, List.countP_cons]
    by_cases h : P a
    · simp [h]
      omega
    · simp [h]

theorem countP_fst_eq (l : List (String × List Job)) (k : String)
    (hnd : (l.map Prod.fst).Nodup) :
    l.countP (fun p => decide (p.1 = k)) = if k ∈ l.map Prod.fst then 1 else 0 := by
  induction l with
  | nil => simp
  | cons p rest ih =>
    simp only [List.map_cons, List.nodup_cons] at hnd
    rw [List.countP_cons]
    by_cases hp : p.1 = k
    · have h0 : rest.countP (fun q => decide (q.1 = k)) = 0 := by
        rw [List.countP_eq_zero]
        intro q hq
        simp only [decide_eq_true_eq]
        intro hqk
        have hm : q.1 ∈ rest.map Prod.fst := List.mem_map_of_mem Prod.fst hq
        rw [hqk, ← hp] at hm
        exact hnd.1 hm
      rw [h0]
      have : k ∈ (p :: rest).map Prod.fst := by simp [← hp]
      rw [if_pos this]
      simp [hp]
    · rw [ih hnd.2]
      have hiff : (k ∈ (p :: rest).map Prod.fst) ↔ k ∈ rest.map Prod.fst := by
        simp only [List.map_cons, List.mem_cons]
        constructor
        · rintro (h | h)
          · exact absurd h.symm hp
          · exact h
        · exact Or.inr
      by_cases hm : k ∈ rest.map Prod.fst
      · rw [if_pos hm, if_pos (hiff.mpr hm)]; simp [hp]
      · rw [if_neg hm, if_neg (fun h => hm (hiff.mp h))]; simp [hp]

theorem countP_fst_conj (l : List (String × List Job)) (c : String)
    (Q : (String × List Job) → Prop) [DecidablePred Q]
    (hnd : (l.map Prod.fst).Nodup) :
    l.countP (fun g => decide (g.1 = c ∧ Q g)) =
      if ∃ g ∈ l, g.1 = c ∧ Q g then 1 else 0 := by
  induction l with
  | nil => simp
  | cons p rest ih =>
    simp only [List.map_cons, List.nodup_cons] at hnd
    rw [List.countP_cons]
    by_cases hp : p.1 = c
    · have h0 : rest.countP (fun g => decide (g.1 = c ∧ Q g)) = 0 := by
        rw [List.countP_eq_zero]
        intro q hq
        simp only [decide_eq_true_eq]
        rintro ⟨hqc, _⟩
        have hm : q.1 ∈ rest.map Prod.fst := List.mem_map_of_mem Prod.fst hq
        rw [hqc, ← hp] at hm
        exact hnd.1 hm
      rw [h0]
      have hex : (∃ g ∈ p :: rest, g.1 = c ∧ Q g) ↔ Q p := by
        constructor
        · rintro ⟨g, hg, hgc, hQ⟩
          rcases List.mem_cons.mp hg with rfl | hgr
          · exact hQ
          · exfalso
            have hm : g.1 ∈ rest.map Prod.fst := List.mem_map_of_mem Prod.fst hgr
            rw [hgc, ← hp] at hm
            exact hnd.1 hm
        · intro hQ; exact ⟨p, List.mem_cons_self p rest, hp, hQ⟩
      by_cases hQ : Q p
      · rw [if_pos (hex.mpr hQ)]; simp [hp, hQ]
      · rw [if_neg (fun h => hQ (hex.mp h))]; simp [hp, hQ]
    · rw [ih hnd.2]
      have hex : (∃ g ∈ p :: rest, g.1 = c ∧ Q g) ↔ ∃ g ∈ rest, g.1 = c ∧ Q g := by
        constructor
        · rintro ⟨g, hg, hgc, hQ⟩
          rcases List.mem_cons.mp hg with rfl | hgr
          · exact absurd hgc hp
          · exact ⟨g, hgr, hgc, hQ⟩
        · rintro ⟨g, hg, hgc, hQ⟩
          exact ⟨g, List.mem_cons_of_mem p hg, hgc, hQ⟩
      by_cases hm : ∃ g ∈ rest, g.1 = c ∧ Q g
      · rw [if_pos hm, if_pos (hex.mpr hm)]; simp [hp]
      · rw [if_neg hm, if_neg (fun h => hm (hex.mp h))]; simp [hp]

theorem insertLe_perm (le : Job → Job → Bool) (x : Job) (l : List Job) :
    (insertLe le x l).Perm (x :: l) := by
  induction l with
  | nil => exact List.Perm.refl _
  | cons y ys ih =>
    by_cases h : le x y
    · simp [insertLe, h]
    · simp only [insertLe, if_neg h]
      exact (ih.cons y).trans (List.Perm.swap x y ys)

theorem stableSort_perm (le : Job → Job → Bool) (l : List Job) :
    (stableSort le l).Perm l := by
  induction l with
  | nil => exact List.Perm.refl _
  | cons x xs ih =>
    exact (insertLe_perm le x (stableSort le xs)).trans (ih.cons x)

theorem headD_mem_of_ne_nil (dj : List Job) (hne : dj ≠ []) :
    dj.headD default ∈ dj := by
  match dj with
  | [] => exact absurd rfl hne
  | j :: rest => exact List.mem_cons_self j rest

theorem mergeGroup_singleton_char (dj : List Job) (hne : dj ≠ []) :
    ∃ r, mergeGroup dj = [r] ∧
      r.company = (dj.headD default).company ∧
      r.location = (dj.headD default).location ∧
      r.dates = (dj.headD default).dates := by
  match dj with
  | [] => exact absurd rfl hne
  | [j] => exact ⟨j, rfl, rfl, rfl, rfl⟩
  | j :: j2 :: rest => exact ⟨_, rfl, rfl, rfl, rfl⟩

theorem mergeGroup_mem_char (dj : List Job) (r : Job) (hr : r ∈ mergeGroup dj) :
    (∃ j, dj = [j] ∧ r = j) ∨
    (2 ≤ dj.length ∧
      r.company = (dj.headD default).company ∧
      r.location = (dj.headD default).location ∧
      r.dates = (dj.headD default).dates ∧
      r.titles = pyDedupKeepFirst (dj.flatMap (fun x => x.titles)) ∧
      r.achievements = pyDedupKeepFirst (dj.flatMap (fun x => x.achievements))) := by
  match dj with
  | [] => simp [mergeGroup] at hr
  | [j] =>
    left
    refine ⟨j, rfl, ?_⟩
    simpa [mergeGroup] using hr
  | j :: j2 :: rest =>
    right
    have hre := hr
    simp only [mergeGroup, List.mem_singleton] at hre
    subst hre
    refine ⟨by simp, rfl, rfl, rfl, rfl, rfl⟩

theorem mergeGroup_countP (dj : List Job) (hne : dj ≠ []) (c k cg kg : String)
    (hmem : ∀ x ∈ dj, x.company = cg ∧ normalize_dates x.dates = kg) :
    (mergeGroup dj).countP (fun r => decide (inBucket c k r)) =
      if cg = c ∧ kg = k then 1 else 0 := by
  obtain ⟨r, hEq, hc, _, hd⟩ := mergeGroup_singleton_char dj hne
  obtain ⟨h1, h2⟩ := hmem (dj.headD default) (headD_mem_of_ne_nil dj hne)
  rw [hEq, List.countP_cons, List.countP_nil]
  have hiff : inBucket c k r ↔ (cg = c ∧ kg = k) := by
    unfold inBucket
    rw [hc, h1, hd, h2]
  by_cases h : cg = c ∧ kg = k
  · rw [if_pos h]; simp [hiff, h]
  · rw [if_neg h]; simp [hiff, h]

theorem bucket_eq_nested_filter (jobs : List Job) (c k : String) :
    bucket jobs c k =
      (jobs.filter (fun x => decide (x.company = c))).filter
        (fun x => decide (normalize_dates x.dates = k)) := by
  unfold bucket
  rw [List.filter_filter]
  apply List.filter_congr
  intro x _
  by_cases h1 : x.company = c <;> by_cases h2 : normalize_dates x.dates = k <;>
    simp [inBucket, h1, h2]

theorem mergedGroups_countP (jobs : List Job) (c k : String) :
    (mergedGroups jobs).countP (fun r => decide (inBucket c k r)) =
      if bucket jobs c k = [] then 0 else 1 := by
  unfold mergedGroups
  rw [countP_flatMap]
  have hpt : ∀ g ∈ groupByKey (fun j => j.company) jobs,
      (((groupByKey (fun j => normalize_dates j.dates) g.2).flatMap
          (fun dg => mergeGroup dg.2)).countP (fun r => decide (inBucket c k r))) =
        if g.1 = c ∧
            k ∈ (groupByKey (fun j => normalize_dates j.dates) g.2).map Prod.fst
          then 1 else 0 := by
    intro g hg
    rw [countP_flatMap]
    have hgF := groupByKey_groups (fun j => j.company) jobs g hg
    have hpt2 : ∀ dg ∈ groupByKey (fun j => normalize_dates j.dates) g.2,
        (mergeGroup dg.2).countP (fun r => decide (inBucket c k r)) =
          if g.1 = c ∧ dg.1 = k then 1 else 0 := by
      intro dg hdg
      have hne := groupByKey_groups_ne_nil (fun j => normalize_dates j.dates) g.2 dg hdg
      have hdgF := groupByKey_groups (fun j => normalize_dates j.dates) g.2 dg hdg
      refine mergeGroup_countP dg.2 hne c k g.1 dg.1 ?_
      intro x hx
      rw [hdgF] at hx
      have hx2 := List.mem_filter.mp hx
      have hxg := hx2.1
      rw [hgF] at hxg
      have hx3 := List.mem_filter.mp hxg
      exact ⟨by simpa using hx3.2, by simpa using hx2.2⟩
    rw [List.map_congr_left hpt2, sum_map_ite_one
      (fun dg => g.1 = c ∧ dg.1 = k)
      (groupByKey (fun j => normalize_dates j.dates) g.2)]
    by_cases hgc : g.1 = c
    · have hcong : (groupByKey (fun j => normalize_dates j.dates) g.2).countP
          (fun dg => decide (g.1 = c ∧ dg.1 = k)) =
          (groupByKey (fun j => normalize_dates j.dates) g.2).countP
            (fun dg => decide (dg.1 = k)) := by
        apply List.countP_congr
        intro dg _
        simp [hgc]
      rw [hcong, countP_fst_eq _ k
        (groupByKey_keys_nodup (fun j => normalize_dates j.dates) g.2)]
      by_cases hk : k ∈ (groupByKey (fun j => normalize_dates j.dates) g.2).map Prod.fst
      · rw [if_pos hk, if_pos ⟨hgc, hk⟩]
      · rw [if_neg hk, if_neg (fun h => hk h.2)]
    · have h0 : (groupByKey (fun j => normalize_dates j.dates) g.2).countP
          (fun dg => decide (g.1 = c ∧ dg.1 = k)) = 0 := by
        rw [List.countP_eq_zero]
        intro dg _
        simp [hgc]
      rw [h0, if_neg (fun h => hgc h.1)]
  rw [List.map_congr_left hpt, sum_map_ite_one
    (fun g => g.1 = c ∧
      k ∈ (groupByKey (fun j => normalize_dates j.dates) g.2).map Prod.fst)
    (groupByKey (fun j => j.company) jobs),
    countP_fst_conj _ c _ (groupByKey_keys_nodup (fun j => j.company) jobs)]
  have hiff : (∃ g ∈ groupByKey (fun j => j.company) jobs, g.1 = c ∧
      k ∈ (groupByKey (fun j => normalize_dates j.dates) g.2).map Prod.fst) ↔
      bucket jobs c k ≠ [] := by
    constructor
    · rintro ⟨g, hg, hgc, hk⟩
      rw [groupByKey_keys, mem_pyDedupKeepFirst] at hk
      obtain ⟨x, hx, hkx⟩ := List.mem_map.mp hk
      have hgF := groupByKey_groups (fun j => j.company) jobs g hg
      rw [hgF] at hx
      have hx2 := List.mem_filter.mp hx
      intro hnil
      have hxb : x ∈ bucket jobs c k := by
        unfold bucket
        rw [List.mem_filter]
        refine ⟨hx2.1, ?_⟩
        simp only [decide_eq_true_eq]
        exact ⟨by rw [← hgc]; simpa using hx2.2, hkx⟩
      rw [hnil] at hxb
      exact absurd hxb (List.not_mem_nil x)
    · intro hne
      obtain ⟨x, hx⟩ := List.exists_mem_of_ne_nil (bucket jobs c k) hne
      unfold bucket at hx
      have hx2 := List.mem_filter.mp hx
      have hxb : inBucket c k x := by simpa using hx2.2
      have hc : c ∈ (groupByKey (fun j => j.company) jobs).map Prod.fst := by
        have h3 : x.company ∈ (groupByKey (fun j => j.company) jobs).map Prod.fst :=
          groupByKey_key_mem (fun j => j.company) jobs x hx2.1
        rwa [hxb.1] at h3
      obtain ⟨g, hg, hgc⟩ := List.mem_map.mp hc
      refine ⟨g, hg, hgc, ?_⟩
      have hxg : x ∈ g.2 := by
        rw [groupByKey_groups (fun j => j.company) jobs g hg, List.mem_filter]
        exact ⟨hx2.1, by simp [hgc, hxb.1]⟩
      have h4 : normalize_dates x.dates ∈
          (groupByKey (fun j => normalize_dates j.dates) g.2).map Prod.fst :=
        groupByKey_key_mem (fun j => normalize_dates j.dates) g.2 x hxg
      rwa [hxb.2] at h4
  by_cases hb : bucket jobs c k = []
  · rw [if_pos hb, if_neg (fun h => (hiff.mp h) hb)]
  · rw [if_neg hb, if_pos (hiff.mpr hb)]

theorem mergedGroups_mem_char (jobs : List Job) (r : Job)
    (hr : r ∈ mergedGroups jobs) (c k : String) (hb : inBucket c k r) :
    ((bucket jobs c k).length = 1 → r = (bucket jobs c k).headD default) ∧
    (2 ≤ (bucket jobs c k).length →
      r.company = ((bucket jobs c k).headD default).company ∧
      r.location = ((bucket jobs c k).headD default).location ∧
      r.dates = ((bucket jobs c k).headD default).dates ∧
      r.titles = firstOccurrences ((bucket jobs c k).flatMap (fun x => x.titles)) ∧
      r.achievements =
        firstOccurrences ((bucket jobs c k).flatMap (fun x => x.achievements))) := by
  unfold mergedGroups at hr
  obtain ⟨g, hg, hr1⟩ := List.mem_flatMap.mp hr
  obtain ⟨dg, hdg, hr2⟩ := List.mem_flatMap.mp hr1
  have hne := groupByKey_groups_ne_nil (fun j => normalize_dates j.dates) g.2 dg hdg
  have hdgF := groupByKey_groups (fun j => normalize_dates j.dates) g.2 dg hdg
  have hgF := groupByKey_groups (fun j => j.company) jobs g hg
  have hhead := headD_mem_of_ne_nil dg.2 hne
  have hmemP : ∀ x ∈ dg.2, x.company = g.1 ∧ normalize_dates x.dates = dg.1 := by
    intro x hx
    rw [hdgF] at hx
    have hx2 := List.mem_filter.mp hx
    have hxg := hx2.1
    rw [hgF] at hxg
    have hx3 := List.mem_filter.mp hxg
    exact ⟨by simpa using hx3.2, by simpa using hx2.2⟩
  have hheadP := hmemP (dg.2.headD default) hhead
  obtain ⟨r0, hEq, hc0, hl0, hd0⟩ := mergeGroup_singleton_char dg.2 hne
  have hrr : r = r0 := by
    rw [hEq] at hr2
    simpa using hr2
  subst hrr
  have hgc : g.1 = c := by rw [← hb.1, hc0, hheadP.1]
  have hdk : dg.1 = k := by rw [← hb.2, hd0, hheadP.2]
  have hbucket : dg.2 = bucket jobs c k := by
    rw [bucket_eq_nested_filter, hdgF, hgF, hgc, hdk]
  rcases mergeGroup_mem_char dg.2 r hr2 with ⟨j, hdj, hrj⟩ | hmulti
  · constructor
    · intro _
      rw [← hbucket, hdj, hrj]
      rfl
    · intro h2
      rw [← hbucket, hdj] at h2
      simp at h2
  · constructor
    · intro h1
      rw [← hbucket] at h1
      exfalso
      have h2 := hmulti.1
      omega
    · intro _
      rw [← hbucket]
      refine ⟨hmulti.2.1, hmulti.2.2.1, hmulti.2.2.2.1, ?_, ?_⟩
      · rw [hmulti.2.2.2.2.1, pyDedupKeepFirst_eq_firstOccurrences]
      · rw [hmulti.2.2.2.2.2, pyDedupKeepFirst_eq_firstOccurrences]

/-! ### Claim C1 -/

/-- C1: the tokenizer does NOT include inner brace delimiters: on
`"{a{b}c}"` from position 0 it returns `"abc"`, not the claimed `"a{b}c"`
(the loop increments/decrements the depth on inner braces without appending
them); depth-3 nesting likewise loses all inner delimiters.  The source's
own cursor arithmetic (`pos += len(arg) + 2`) and its `\end{cvitems}`
cleanup in `_clean_text` both presuppose the delimiters are preserved, so
the code contradicts its own callers. -/
theorem c1_extract_drops_inner_braces :
    extract_balanced_braces ("\x7ba\x7bb\x7dc\x7d") 0 = ("abc") ∧
    extract_balanced_braces ("\x7ba\x7bb\x7dc\x7d") 0 ≠ ("a\x7bb\x7dc") ∧
    extract_balanced_braces ("\x7ba\x7bb\x7bz\x7dc\x7dd\x7d") 0 = ("abzcd") := by
  refine ⟨rfl, by decide, rfl⟩

/-! ### Claim C2 -/

/-- C2 counterexample: `clean_latex_text` is not idempotent.  On
`"100\% done"` one application yields `"100% done"` (the escaped percent is
protected by the placeholder pre-pass), but a second application sees a bare
`%` and strips the rest of the line as a comment, yielding `"100"`. -/
theorem c2_clean_not_idempotent :
    clean_latex_text true false ("") ("100\\% done") = ("100% done") ∧
    clean_latex_text true false ("") (clean_latex_text true false ("") ("100\\% done")) = ("100") ∧
    clean_latex_text true false ("") (clean_latex_text true false ("") ("100\\% done")) ≠
      clean_latex_text true false ("") ("100\\% done") := by
  refine ⟨rfl, rfl, by decide⟩

/-! ### Claim C4 -/

/-- C4 counterexample: in the whole cleaning function the backslash-parity
rule fails.  In `"a\\% b"` the `%` is preceded by an even number (two) of
backslashes, so per the claim it should terminate the line there; instead
the escaped-percent pre-pass consumes the second backslash together with the
`%`, and both the `%` and the text after it survive cleaning. -/
theorem c4_even_backslash_percent_kept :
    clean_latex_text true false ("") ("a\\\\% b") = ("a\\% b") ∧
    '%' ∈ (clean_latex_text true false ("") ("a\\\\% b")).data ∧
    'b' ∈ (clean_latex_text true false ("") ("a\\\\% b")).data := by
  refine ⟨rfl, by decide, by decide⟩

/-! ### Claim C5 -/

/-- C5 counterexample: an item whose cleaned text has exactly 10 characters
is dropped (the source keeps an item only when `len(cleaned) > 10`), so the
boundary claimed at 10 actually lies at 11. -/
theorem c5_ten_char_item_dropped :
    parse_experience_tex
        ("\\cventry\x7bT\x7d\x7bC\x7d\x7bL\x7d\x7bD\x7d\x7b\\item abcdefghij\x7d") =
      [{ titles := [("T")], company := ("C"), location := ("L"),
         dates := ("D"), achievements := [] }] ∧
    (clean_text ("abcdefghij")).length = 10 := by
  refine ⟨by decide, rfl⟩

/-! ### Claim C6 -/

/-- C6 counterexample: an occurrence whose fifth argument has no closing
brace is NOT skipped: the tokenizer returns the accumulated remainder
rather than failing, five arguments are collected, and a record is emitted. -/
theorem c6_unterminated_brace_still_emits :
    (parse_experience_tex ("\\cventry\x7ba\x7d\x7bb\x7d\x7bc\x7d\x7bd\x7d\x7be")).length = 1 ∧
    extract_balanced_braces ("\x7be") 0 = ("e") := by
  refine ⟨by decide, rfl⟩

/-- C2 amended: the cleaning function is idempotent on the specification's
sampled representative inputs (plain text, comments, bold/italic markup,
spacing macros, escaped characters other than `%`, unknown commands, the
separator idiom, and the strip-formatting option), though not on every
input. -/
theorem c2_amended_idempotent_on_samples :
    (clean_latex_text true false ("") (clean_latex_text true false ("") ("Hello World")) =
      clean_latex_text true false ("") ("Hello World")) ∧
    (clean_latex_text true false ("") (clean_latex_text true false ("") ("keep % drop\nkeep2")) =
      clean_latex_text true false ("") ("keep % drop\nkeep2")) ∧
    (clean_latex_text true false ("")
        (clean_latex_text true false ("") ("\\textbf\x7bBold\x7d and \\textit\x7bit\x7d")) =
      clean_latex_text true false ("") ("\\textbf\x7bBold\x7d and \\textit\x7bit\x7d")) ∧
    (clean_latex_text true false ("") (clean_latex_text true false ("") ("a~b \\quad c")) =
      clean_latex_text true false ("") ("a~b \\quad c")) ∧
    (clean_latex_text true false ("") (clean_latex_text true false ("") ("\\$5 \\& x\\_y")) =
      clean_latex_text true false ("") ("\\$5 \\& x\\_y")) ∧
    (clean_latex_text true false ("")
        (clean_latex_text true false ("") ("\\unknown[opt]\x7barg\x7d text")) =
      clean_latex_text true false ("") ("\\unknown[opt]\x7barg\x7d text")) ∧
    (clean_latex_text true false ("")
        (clean_latex_text true false ("")
          ("Data Engineer\x7b\\enskip\\cdotp\\enskip\x7d Analyst")) =
      clean_latex_text true false ("")
        ("Data Engineer\x7b\\enskip\\cdotp\\enskip\x7d Analyst")) ∧
    (clean_latex_text false false ("") (clean_latex_text false false ("") ("\\textbf\x7bBold\x7d x")) =
      clean_latex_text false false ("") ("\\textbf\x7bBold\x7d x")) :=
  ⟨by decide, by decide, by decide, by decide, by decide, by decide, by decide,
    by decide⟩

/-! ### Parity characterization of `remove_latex_comment` (C4 amended) -/

theorem unescapedPercentAt_iff (cs : List Char) (i : Nat) (hi : i < cs.length) :
    unescapedPercentAt cs i ↔ (cs.get ⟨i, hi⟩ = '%' ∧ bsBefore cs i % 2 = 0) := by
  unfold unescapedPercentAt
  rw [List.getElem?_eq_getElem hi]
  constructor
  · rintro ⟨h1, h2⟩
    exact ⟨by rw [List.get_eq_getElem]; exact Option.some.inj h1, h2⟩
  · rintro ⟨h1, h2⟩
    refine ⟨?_, h2⟩
    rw [List.get_eq_getElem] at h1
    rw [h1]

theorem rlc_no_hit (cs : List Char) : ∀ (fuel i : Nat), cs.length ≤ i + fuel →
    (∀ j, i ≤ j → j < cs.length → ¬ unescapedPercentAt cs j) →
    rlcAux cs fuel i = cs := by
  intro fuel
  induction fuel with
  | zero => intro i _ _; rfl
  | succ fuel ih =>
    intro i h hnone
    by_cases hi : i < cs.length
    · have hcond : ¬ (cs.get ⟨i, hi⟩ = '%' ∧ bsBefore cs i % 2 = 0) := by
        intro hc
        exact hnone i (Nat.le_refl i) hi ((unescapedPercentAt_iff cs i hi).mpr hc)
      simp only [rlcAux, dif_pos hi, if_neg hcond]
      exact ih (i + 1) (by omega) (fun j hj hjl => hnone j (by omega) hjl)
    · simp only [rlcAux, dif_neg hi]

theorem rlc_hit (cs : List Char) : ∀ (fuel i k : Nat), i ≤ k → k < cs.length →
    unescapedPercentAt cs k → (∀ j, i ≤ j → j < k → ¬ unescapedPercentAt cs j) →
    k < i + fuel → rlcAux cs fuel i = pyRstrip (cs.take k) := by
  intro fuel
  induction fuel with
  | zero => intro i k hik _ _ _ hfuel; omega
  | succ fuel ih =>
    intro i k hik hkl hk hnone hfuel
    have hi : i < cs.length := Nat.lt_of_le_of_lt hik hkl
    by_cases hikeq : i = k
    · subst hikeq
      have hcond : cs.get ⟨i, hi⟩ = '%' ∧ bsBefore cs i % 2 = 0 :=
        (unescapedPercentAt_iff cs i hi).mp hk
      simp only [rlcAux, dif_pos hi, if_pos hcond]
    · have hcond : ¬ (cs.get ⟨i, hi⟩ = '%' ∧ bsBefore cs i % 2 = 0) := by
        intro hc
        exact hnone i (Nat.le_refl i) (by omega)
          ((unescapedPercentAt_iff cs i hi).mpr hc)
      simp only [rlcAux, dif_pos hi, if_neg hcond]
      exact ih (i + 1) k (by omega) hkl hk
        (fun j hj hjk => hnone j (by omega) hjk) (by omega)

/-- C4 amended: the backslash-parity rule does hold for the per-line
comment remover `remove_latex_comment` in isolation: the line is truncated
(with trailing whitespace stripped) at the first `%` preceded by an even
number of backslashes, and is returned unchanged when every `%` in it has
an odd backslash count.  (For the cleaning function as a whole the rule
fails, because the escaped-percent pre-pass consumes `\%` pairs first —
see the counterexample.) -/
theorem c4_amended_parity_in_helper :
    (∀ (cs : List Char) (i : Nat), i < cs.length → unescapedPercentAt cs i →
      (∀ j, j < i → ¬ unescapedPercentAt cs j) →
      remove_latex_commentL cs = pyRstrip (cs.take i)) ∧
    (∀ (cs : List Char), (∀ i, i < cs.length → ¬ unescapedPercentAt cs i) →
      remove_latex_commentL cs = cs) := by
  constructor
  · intro cs i hi hP hfirst
    exact rlc_hit cs (cs.length + 1) 0 i (Nat.zero_le i) hi hP
      (fun j _ hj => hfirst j hj) (by omega)
  · intro cs hnone
    exact rlc_no_hit cs (cs.length + 1) 0 (by omega) (fun j _ hjl => hnone j hjl)

/-- C4 amended, witness: `"ab % c"` is truncated at its unescaped `%`
(index 3) and right-stripped; `"ab \% c"` (odd backslash count) is kept
whole. -/
theorem c4_amended_parity_witness :
    remove_latex_commentL ("ab % c").data = pyRstrip (("ab % c").data.take 3) ∧
    remove_latex_commentL ("ab \\% c").data = ("ab \\% c").data :=
  ⟨c4_amended_parity_in_helper.1 (("ab % c").data) 3 (by decide) (by decide)
      (by decide),
    c4_amended_parity_in_helper.2 (("ab \\% c").data) (by decide)⟩

/-! ### Claim C5, amended -/

/-- C5 amended: the bullet filter's boundary lies at 11, not 10: every kept
achievement has cleaned length strictly greater than 10, and every item
whose cleaned text is strictly longer than 10 is kept. -/
theorem c5_amended_boundary_eleven :
    (∀ (block : List Char) (s : String), s ∈ achievementsOf block → 10 < s.length) ∧
    (∀ (block it : List Char), it ∈ itemsOf block →
      10 < (clean_textL it).length →
      (⟨clean_textL it⟩ : String) ∈ achievementsOf block) := by
  constructor
  · intro block s hs
    unfold achievementsOf at hs
    obtain ⟨it, _, heq⟩ := List.mem_filterMap.mp hs
    by_cases hcond : clean_textL it ≠ [] ∧ 10 < (clean_textL it).length
    · rw [if_pos hcond] at heq
      have hse : s = ⟨clean_textL it⟩ := (Option.some.inj heq).symm
      rw [hse]
      exact hcond.2
    · rw [if_neg hcond] at heq
      exact absurd heq (by simp)
  · intro block it hit hlen
    unfold achievementsOf
    apply List.mem_filterMap.mpr
    refine ⟨it, hit, ?_⟩
    have hne : clean_textL it ≠ [] := by
      intro hnil
      rw [hnil] at hlen
      simp at hlen
    rw [if_pos ⟨hne, hlen⟩]

/-- C5 amended, witness: an 11-character cleaned item is kept, and every
kept achievement of that block indeed has length above 10. -/
theorem c5_amended_boundary_witness :
    (⟨clean_textL ("abcdefghijk").data⟩ : String) ∈
      achievementsOf ("\\item abcdefghijk").data ∧
    10 < (⟨clean_textL ("abcdefghijk").data⟩ : String).length := by
  have h1 := c5_amended_boundary_eleven.2 (("\\item abcdefghijk").data)
    (("abcdefghijk").data) (by decide) (by decide)
  exact ⟨h1, c5_amended_boundary_eleven.1 (("\\item abcdefghijk").data) _ h1⟩

/-! ### Claim C6, amended -/

theorem length_filterMap_eq_countP {α β : Type} (f : α → Option β) (l : List α) :
    (l.filterMap f).length = l.countP (fun a => (f a).isSome) := by
  induction l with
  | nil => rfl
  | cons a l ih =>
    rw [List.filterMap_cons, List.countP_cons]
    cases hfa : f a <;> simp [hfa, ih]

theorem exists_five {α : Type} (l : List α) (h : l.length = 5) :
    ∃ a b c d e, l = [a, b, c, d, e] := by
  match l with
  | [a, b, c, d, e] => exact ⟨a, b, c, d, e, rfl⟩

theorem jobAt_isSome_iff (text : List Char) (pos : Nat) :
    (jobAt text pos).isSome = true ↔ (collectArgs text 5 pos).length = 5 := by
  unfold jobAt
  match hc : collectArgs text 5 pos with
  | [] => simp
  | [_] => simp
  | [_, _] => simp
  | [_, _, _] => simp
  | [_, _, _, _] => simp
  | [_, _, _, _, _] => simp
  | _ :: _ :: _ :: _ :: _ :: _ :: _ => simp

/-- C6 amended: extraction is total and best-effort in the following sense:
the brace tokenizer returns the empty string when `start_pos` is out of
range or does not point at `{`; and an occurrence contributes a record
exactly when five brace arguments are collected (a non-`{` character or
exhausted input before the fifth argument means the occurrence is skipped
and scanning continues with the remaining occurrences).  A missing closing
brace, however, does not abort the occurrence: the tokenizer returns the
accumulated remainder, so an unterminated final argument still yields a
record — see the counterexample. -/
theorem c6_amended_skip_semantics :
    (∀ (text : List Char) (startPos : Nat),
      text.length ≤ startPos ∨ ¬ (text[startPos]? = some '{') →
      extractBalancedBracesL text startPos = []) ∧
    (∀ (content : List Char),
      (parse_experience_texL content).length =
        ((cventryEnds content).filter
          (fun pos => (collectArgs content 5 pos).length = 5)).length) := by
  constructor
  · intro text startPos h
    unfold extractBalancedBracesL
    rw [if_neg]
    rintro ⟨h1, h2⟩
    rcases h with h | h
    · omega
    · exact h h2
  · intro content
    unfold parse_experience_texL
    rw [length_filterMap_eq_countP, List.countP_eq_length_filter]
    congr 1
    apply List.filter_congr
    intro pos _
    have := jobAt_isSome_iff content pos
    by_cases h5 : (collectArgs content 5 pos).length = 5
    · simp [this.mpr h5, h5]
    · have hnone : jobAt content pos = none := by
        cases hj : jobAt content pos with
        | none => rfl
        | some j => exact absurd (this.mp (by rw [hj]; rfl)) h5
      rw [hnone]
      simp [h5]

/-- C6 amended, witness: the tokenizer fails cleanly on a non-brace start
position, and on a document with one well-formed and one malformed
occurrence the record count equals the well-formed occurrence count. -/
theorem c6_amended_skip_witness :
    extractBalancedBracesL ("abc").data 1 = [] ∧
    (parse_experience_texL
        ("\\cventry\x7ba\x7db \\cventry\x7bt\x7d\x7bc\x7d\x7bl\x7d\x7bd\x7d\x7b\x7d").data).length =
      ((cventryEnds
          ("\\cventry\x7ba\x7db \\cventry\x7bt\x7d\x7bc\x7d\x7bl\x7d\x7bd\x7d\x7b\x7d").data).filter
        (fun pos =>
          (collectArgs
            ("\\cventry\x7ba\x7db \\cventry\x7bt\x7d\x7bc\x7d\x7bl\x7d\x7bd\x7d\x7b\x7d").data
            5 pos).length = 5)).length :=
  ⟨c6_amended_skip_semantics.1 (("abc").data) 1 (Or.inr (by decide)),
    c6_amended_skip_semantics.2
      (("\\cventry\x7ba\x7db \\cventry\x7bt\x7d\x7bc\x7d\x7bl\x7d\x7bd\x7d\x7b\x7d").data)⟩

/-! ### Claim C3 -/

/-- C3 counterexample: `parse_experience_tex` performs no placeholder
filtering — a record whose title is `"[Job Title]"` IS emitted by the
experience-shape extractor. -/
theorem c3_experience_emits_placeholder_title :
    parse_experience_tex ("\\cventry\x7b[Job Title]\x7d\x7bC\x7d\x7bL\x7d\x7bD\x7d\x7b\x7d") =
      [{ titles := [("[Job Title]")], company := ("C"), location := ("L"),
         dates := ("D"), achievements := [] }] := by
  decide

theorem genEntryAt_eq_some (text : List Char) (pos : Nat) (e : GenEntry)
    (h : genEntryAt text pos = some e) :
    ∃ a b c d e5, collectArgs text 5 pos = [a, b, c, d, e5] ∧
      ¬ ('[' ∈ a ∨ a = []) := by
  unfold genEntryAt at h
  match hc : collectArgs text 5 pos with
  | [] => rw [hc] at h; cases h
  | [_] => rw [hc] at h; cases h
  | [_, _] => rw [hc] at h; cases h
  | [_, _, _] => rw [hc] at h; cases h
  | [_, _, _, _] => rw [hc] at h; cases h
  | [a, b, c, d, e5] =>
    rw [hc] at h
    have h2 : (if '[' ∈ a ∨ a = [] then (none : Option GenEntry)
        else some { title := ⟨clean_textL a⟩, organization := ⟨clean_textL b⟩,
                    location := ⟨clean_textL c⟩, dates := ⟨clean_textL d⟩,
                    items := genericItemsOf e5 }) = some e := h
    by_cases hcond : '[' ∈ a ∨ a = []
    · rw [if_pos hcond] at h2; cases h2
    · exact ⟨a, b, c, d, e5, rfl, hcond⟩
  | _ :: _ :: _ :: _ :: _ :: _ :: _ => rw [hc] at h; cases h

/-- C3 amended: the placeholder-filtering policy is enforced by the
honor-shape extractor (every emitted record's cleaned name is nonempty and
free of `[`) and by the generic entry-shape extractor (every emitted record
stems from an occurrence whose raw stripped title is nonempty and free of
`[`); the experience-shape extractor applies no such filter — see the
counterexample. -/
theorem c3_amended_placeholder_filtering :
    (∀ (content : List Char) (x : Honor), x ∈ parse_cvhonors_texL content →
      x.name ≠ "" ∧ '[' ∉ x.name.data) ∧
    (∀ (content : List Char) (e : GenEntry),
      e ∈ parse_cventries_generic_texL content →
      ∃ pos ∈ cventryEnds content, genEntryAt content pos = some e ∧
        (collectArgs content 5 pos).headD [] ≠ [] ∧
        '[' ∉ (collectArgs content 5 pos).headD []) := by
  constructor
  · intro content x hx
    unfold parse_cvhonors_texL at hx
    obtain ⟨g, _, hOf⟩ := List.mem_filterMap.mp hx
    unfold honorOf at hOf
    by_cases hcond : '[' ∈ clean_textL g.1 ∨ clean_textL g.1 = []
    · rw [if_pos hcond] at hOf
      cases hOf
    · rw [if_neg hcond] at hOf
      push_neg at hcond
      have hxe := Option.some.inj hOf
      constructor
      · intro hempty
        apply hcond.2
        have hname : x.name = ⟨clean_textL g.1⟩ := by rw [← hxe]
        rw [hempty] at hname
        exact (congrArg String.data hname).symm
      · intro hbr
        apply hcond.1
        have hdata : x.name.data = clean_textL g.1 := by rw [← hxe]
        rwa [hdata] at hbr
  · intro content e he
    unfold parse_cventries_generic_texL at he
    obtain ⟨pos, hpos, hsome⟩ := List.mem_filterMap.mp he
    refine ⟨pos, hpos, hsome, ?_⟩
    obtain ⟨a, b, c, d, e5, hc, hcond⟩ := genEntryAt_eq_some content pos e hsome
    push_neg at hcond
    rw [hc]
    exact ⟨hcond.2, hcond.1⟩

/-- C3 amended, witness: a concrete honor record and a concrete generic
entry both satisfy the filtering conclusions. -/
theorem c3_amended_placeholder_witness :
    (({ name := ("Cert A"), organization := ("Org"), location := ("L"), date := ("2023") } : Honor).name ≠ "" ∧
      '[' ∉ ({ name := ("Cert A"), organization := ("Org"), location := ("L"), date := ("2023") } : Honor).name.data) ∧
    (∃ pos ∈ cventryEnds ("\\cventry\x7bT\x7d\x7bO\x7d\x7bL\x7d\x7bD\x7d\x7b\x7d").data,
      genEntryAt ("\\cventry\x7bT\x7d\x7bO\x7d\x7bL\x7d\x7bD\x7d\x7b\x7d").data pos =
        some ({ title := ("T"), organization := ("O"), location := ("L"), dates := ("D"), items := [] } : GenEntry) ∧
      (collectArgs ("\\cventry\x7bT\x7d\x7bO\x7d\x7bL\x7d\x7bD\x7d\x7b\x7d").data
        5 pos).headD [] ≠ [] ∧
      '[' ∉ (collectArgs ("\\cventry\x7bT\x7d\x7bO\x7d\x7bL\x7d\x7bD\x7d\x7b\x7d").data
        5 pos).headD []) :=
  ⟨c3_amended_placeholder_filtering.1
      (("\\cvhonor\x7bCert A\x7d\x7bOrg\x7d\x7bL\x7d\x7b2023\x7d").data)
      ({ name := ("Cert A"), organization := ("Org"), location := ("L"), date := ("2023") } : Honor)
      (by decide),
    c3_amended_placeholder_filtering.2
      (("\\cventry\x7bT\x7d\x7bO\x7d\x7bL\x7d\x7bD\x7d\x7b\x7d").data)
      ({ title := ("T"), organization := ("O"), location := ("L"), dates := ("D"), items := [] } : GenEntry)
      (by decide)⟩

/-! ### Claim C9 -/

/-- C9 counterexample: the two extractors do not process the same macro
identically.  On a document whose title argument is a placeholder the
experience extractor emits a record while the generic extractor rejects the
occurrence; and even on accepted occurrences the generic extractor does not
normalize the organization while the experience extractor does. -/
theorem c9_parsers_differ :
    (parse_experience_tex ("\\cventry\x7b[Job Title]\x7d\x7bC\x7d\x7bL\x7d\x7bD\x7d\x7b\x7d")).length = 1 ∧
    (parse_cventries_generic_tex ("\\cventry\x7b[Job Title]\x7d\x7bC\x7d\x7bL\x7d\x7bD\x7d\x7b\x7d")).length = 0 ∧
    ((parse_experience_tex ("\\cventry\x7bT\x7d\x7bA -- B\x7d\x7bL\x7d\x7bD\x7d\x7b\x7d")).headD default).company
      = ("A - B") ∧
    ((parse_cventries_generic_tex ("\\cventry\x7bT\x7d\x7bA -- B\x7d\x7bL\x7d\x7bD\x7d\x7b\x7d")).headD default).organization
      = ("A -- B") := by
  refine ⟨by decide, by decide, rfl, rfl⟩

theorem genericItems_eq_achievements (block : List Char)
    (hnb : ∀ s ∈ achievementsOf block, '[' ∉ s.data) :
    genericItemsOf block = achievementsOf block := by
  unfold genericItemsOf achievementsOf
  apply List.filterMap_congr
  intro it hit
  by_cases h1 : clean_textL it ≠ [] ∧ 10 < (clean_textL it).length
  · have hmem : (⟨clean_textL it⟩ : String) ∈ achievementsOf block := by
      unfold achievementsOf
      exact List.mem_filterMap.mpr ⟨it, hit, by rw [if_pos h1]⟩
    have hnob : '[' ∉ clean_textL it := hnb _ hmem
    rw [if_pos ⟨h1.1, h1.2, hnob⟩, if_pos h1]
  · rw [if_neg (fun hh => h1 ⟨hh.1, hh.2.1⟩), if_neg h1]

/-- C9 amended: the two `\cventry` extractors scan the same occurrences and
extract the same arguments, and they produce the same record sequence up to
the field renaming whenever every accepted occurrence has a nonempty,
`[`-free raw title (the generic extractor's placeholder filter is then
vacuous), a cleaned organization fixed by `normalize_company` (the
experience extractor additionally normalizes the organization), and no kept
bullet item containing `[` (the generic extractor's extra item filter is
then vacuous).  Without these hypotheses the extractors differ — see the
counterexample. -/
theorem c9_amended_conditional_equivalence (content : List Char)
    (hyp : ∀ pos ∈ cventryEnds content,
      (collectArgs content 5 pos).length = 5 →
      ((collectArgs content 5 pos).headD [] ≠ [] ∧
       '[' ∉ (collectArgs content 5 pos).headD [] ∧
       normalize_companyL (clean_textL ((collectArgs content 5 pos).getD 1 [])) =
         clean_textL ((collectArgs content 5 pos).getD 1 []) ∧
       ∀ s ∈ achievementsOf ((collectArgs content 5 pos).getD 4 []), '[' ∉ s.data)) :
    parse_cventries_generic_texL content =
      (parse_experience_texL content).map jobToEntry := by
  unfold parse_cventries_generic_texL parse_experience_texL
  rw [List.map_filterMap]
  apply List.filterMap_congr
  intro pos hpos
  unfold genEntryAt jobAt
  match hc : collectArgs content 5 pos with
  | [] => rfl
  | [_] => rfl
  | [_, _] => rfl
  | [_, _, _] => rfl
  | [_, _, _, _] => rfl
  | [a, b, c, d, e5] =>
    have h5 : (collectArgs content 5 pos).length = 5 := by rw [hc]; rfl
    obtain ⟨hne, hnob, hnc, hitems⟩ := hyp pos hpos h5
    rw [hc] at hne hnob hnc hitems
    simp only [List.headD_cons, List.getD_cons_succ, List.getD_cons_zero] at hne hnob hnc hitems
    show (if '[' ∈ a ∨ a = [] then (none : Option GenEntry)
          else some { title := ⟨clean_textL a⟩, organization := ⟨clean_textL b⟩,
                      location := ⟨clean_textL c⟩, dates := ⟨clean_textL d⟩,
                      items := genericItemsOf e5 }) =
        Option.map jobToEntry (some { titles := [⟨clean_textL a⟩],
                                      company := normalize_company ⟨clean_textL b⟩,
                                      location := ⟨clean_textL c⟩,
                                      dates := ⟨clean_textL d⟩,
                                      achievements := achievementsOf e5 })
    rw [if_neg (by rintro (h | h); exact hnob h; exact hne h)]
    rw [genericItems_eq_achievements e5 hitems]
    have horg : normalize_company (⟨clean_textL b⟩ : String) = ⟨clean_textL b⟩ := by
      unfold normalize_company
      exact congrArg String.mk hnc
    simp [jobToEntry, horg]
  | _ :: _ :: _ :: _ :: _ :: _ :: _ => rfl

/-- C9 amended, witness: on a document satisfying the hypotheses the
generic extractor's output is exactly the experience extractor's output
under the field renaming. -/
theorem c9_amended_equivalence_witness :
    parse_cventries_generic_texL
        ("\\cventry\x7bT\x7d\x7bOrg\x7d\x7bL\x7d\x7bD\x7d\x7b\\item abcdefghijklmno\x7d").data =
      (parse_experience_texL
        ("\\cventry\x7bT\x7d\x7bOrg\x7d\x7bL\x7d\x7bD\x7d\x7b\\item abcdefghijklmno\x7d").data).map
        jobToEntry :=
  c9_amended_conditional_equivalence
    (("\\cventry\x7bT\x7d\x7bOrg\x7d\x7bL\x7d\x7bD\x7d\x7b\\item abcdefghijklmno\x7d").data)
    (by decide)

/-! ### Claims C7 and C10 -/

/-- C7: `merge_jobs` combines every bucket of two or more records sharing
the company field (normalized by extraction) and the normalized date key
(`normalize_dates`: dash runs collapsed, `Present` mapped case-insensitively
to the sentinel year, whitespace removed) into exactly one record in the
final collection, whose titles and achievements are the concatenations of
the bucket members' lists in first-seen order with exact repeats removed. -/
theorem c7_merge_combines_buckets (jobs : List Job) (c k : String)
    (h2 : 2 ≤ (bucket jobs c k).length) :
    ((merge_jobs jobs).filter (fun r => inBucket c k r)).length = 1 ∧
    ∀ r ∈ merge_jobs jobs, inBucket c k r →
      r.titles = firstOccurrences ((bucket jobs c k).flatMap (fun x => x.titles)) ∧
      r.achievements =
        firstOccurrences ((bucket jobs c k).flatMap (fun x => x.achievements)) := by
  have hperm : (merge_jobs jobs).Perm (mergedGroups jobs) := stableSort_perm _ _
  have hne : bucket jobs c k ≠ [] := by
    intro h
    rw [h] at h2
    simp at h2
  constructor
  · rw [← List.countP_eq_length_filter, List.Perm.countP_eq _ hperm,
      mergedGroups_countP jobs c k, if_neg hne]
  · intro r hrm hrb
    have hrm2 : r ∈ mergedGroups jobs := hperm.mem_iff.mp hrm
    have hchar := (mergedGroups_mem_char jobs r hrm2 c k hrb).2 h2
    exact ⟨hchar.2.2.2.1, hchar.2.2.2.2⟩

/-- C7 witness: the specification's Tech Corp example — dates `"2020 - 2023"`
and `"2020 -- 2023"` share the normalized key `"2020-2023"`, the records
merge into exactly one, and the merged lists are the deduplicated unions in
first-seen order. -/
theorem c7_merge_combines_witness :
    2 ≤ (bucket
        [{ titles := [("Senior Engineer")], company := ("Tech Corp"), location := ("NYC, NY"), dates := ("2020 - 2023"), achievements := [("Shipped the platform rewrite")] },
         { titles := [("Lead Engineer")], company := ("Tech Corp"), location := ("NYC, NY"), dates := ("2020 -- 2023"), achievements := [("Shipped the platform rewrite"), ("Led the team")] }]
        ("Tech Corp") ("2020-2023")).length ∧
    (((merge_jobs
        [{ titles := [("Senior Engineer")], company := ("Tech Corp"), location := ("NYC, NY"), dates := ("2020 - 2023"), achievements := [("Shipped the platform rewrite")] },
         { titles := [("Lead Engineer")], company := ("Tech Corp"), location := ("NYC, NY"), dates := ("2020 -- 2023"), achievements := [("Shipped the platform rewrite"), ("Led the team")] }]).filter
      (fun r => inBucket ("Tech Corp") ("2020-2023") r)).length = 1 ∧
    ∀ r ∈ merge_jobs
        [{ titles := [("Senior Engineer")], company := ("Tech Corp"), location := ("NYC, NY"), dates := ("2020 - 2023"), achievements := [("Shipped the platform rewrite")] },
         { titles := [("Lead Engineer")], company := ("Tech Corp"), location := ("NYC, NY"), dates := ("2020 -- 2023"), achievements := [("Shipped the platform rewrite"), ("Led the team")] }],
      inBucket ("Tech Corp") ("2020-2023") r →
      r.titles = firstOccurrences ((bucket
        [{ titles := [("Senior Engineer")], company := ("Tech Corp"), location := ("NYC, NY"), dates := ("2020 - 2023"), achievements := [("Shipped the platform rewrite")] },
         { titles := [("Lead Engineer")], company := ("Tech Corp"), location := ("NYC, NY"), dates := ("2020 -- 2023"), achievements := [("Shipped the platform rewrite"), ("Led the team")] }]
        ("Tech Corp") ("2020-2023")).flatMap (fun x => x.titles)) ∧
      r.achievements = firstOccurrences ((bucket
        [{ titles := [("Senior Engineer")], company := ("Tech Corp"), location := ("NYC, NY"), dates := ("2020 - 2023"), achievements := [("Shipped the platform rewrite")] },
         { titles := [("Lead Engineer")], company := ("Tech Corp"), location := ("NYC, NY"), dates := ("2020 -- 2023"), achievements := [("Shipped the platform rewrite"), ("Led the team")] }]
        ("Tech Corp") ("2020-2023")).flatMap (fun x => x.achievements))) :=
  ⟨by decide,
    c7_merge_combines_buckets
      [{ titles := [("Senior Engineer")], company := ("Tech Corp"), location := ("NYC, NY"), dates := ("2020 - 2023"), achievements := [("Shipped the platform rewrite")] },
       { titles := [("Lead Engineer")], company := ("Tech Corp"), location := ("NYC, NY"), dates := ("2020 -- 2023"), achievements := [("Shipped the platform rewrite"), ("Led the team")] }]
      ("Tech Corp") ("2020-2023") (by decide)⟩

/-- C10: frame property of merging — whenever a bucket with two or more
records is merged, every record of the final collection lying in that
bucket keeps the company, location and dates fields of the bucket's
first-seen record verbatim; in particular the dates field keeps its
original formatting, never the normalized comparison key. -/
theorem c10_merge_frame_fields (jobs : List Job) (c k : String)
    (h2 : 2 ≤ (bucket jobs c k).length) :
    ∀ r ∈ merge_jobs jobs, inBucket c k r →
      r.company = ((bucket jobs c k).headD default).company ∧
      r.location = ((bucket jobs c k).headD default).location ∧
      r.dates = ((bucket jobs c k).headD default).dates := by
  have hperm : (merge_jobs jobs).Perm (mergedGroups jobs) := stableSort_perm _ _
  intro r hrm hrb
  have hrm2 : r ∈ mergedGroups jobs := hperm.mem_iff.mp hrm
  have hchar := (mergedGroups_mem_char jobs r hrm2 c k hrb).2 h2
  exact ⟨hchar.1, hchar.2.1, hchar.2.2.1⟩

/-- C10 witness: in a merged dash-variant bucket the surviving record keeps
the first record's location and original dates string `"2020 - 2023"`. -/
theorem c10_merge_frame_witness :
    2 ≤ (bucket
        [{ titles := [("A")], company := ("Corp"), location := ("Ottawa, ON"), dates := ("2020 - 2023"), achievements := [] },
         { titles := [("B")], company := ("Corp"), location := ("Toronto, ON"), dates := ("2020 -- 2023"), achievements := [] }]
        ("Corp") ("2020-2023")).length ∧
    ∀ r ∈ merge_jobs
        [{ titles := [("A")], company := ("Corp"), location := ("Ottawa, ON"), dates := ("2020 - 2023"), achievements := [] },
         { titles := [("B")], company := ("Corp"), location := ("Toronto, ON"), dates := ("2020 -- 2023"), achievements := [] }],
      inBucket ("Corp") ("2020-2023") r →
      r.company = ((bucket
        [{ titles := [("A")], company := ("Corp"), location := ("Ottawa, ON"), dates := ("2020 - 2023"), achievements := [] },
         { titles := [("B")], company := ("Corp"), location := ("Toronto, ON"), dates := ("2020 -- 2023"), achievements := [] }]
        ("Corp") ("2020-2023")).headD default).company ∧
      r.location = ((bucket
        [{ titles := [("A")], company := ("Corp"), location := ("Ottawa, ON"), dates := ("2020 - 2023"), achievements := [] },
         { titles := [("B")], company := ("Corp"), location := ("Toronto, ON"), dates := ("2020 -- 2023"), achievements := [] }]
        ("Corp") ("2020-2023")).headD default).location ∧
      r.dates = ((bucket
        [{ titles := [("A")], company := ("Corp"), location := ("Ottawa, ON"), dates := ("2020 - 2023"), achievements := [] },
         { titles := [("B")], company := ("Corp"), location := ("Toronto, ON"), dates := ("2020 -- 2023"), achievements := [] }]
        ("Corp") ("2020-2023")).headD default).dates :=
  ⟨by decide,
    c10_merge_frame_fields
      [{ titles := [("A")], company := ("Corp"), location := ("Ottawa, ON"), dates := ("2020 - 2023"), achievements := [] },
       { titles := [("B")], company := ("Corp"), location := ("Toronto, ON"), dates := ("2020 -- 2023"), achievements := [] }]
      ("Corp") ("2020-2023") (by decide)⟩

/-! ### Claim C8 -/

/-- C8 counterexample: an Entry that was the sole member of its
`(organization, dates)` bucket passes through `merge_jobs` unmodified and
can carry duplicate achievements produced by extraction (two identical
bullet items), so the claimed de-duplication invariant fails on the final
collection. -/
theorem c8_sole_bucket_keeps_duplicates :
    merge_jobs (parse_experience_tex
        ("\\cventry\x7bT\x7d\x7bC\x7d\x7bL\x7d\x7bD\x7d\x7b\\item aaaaaaaaaaaa \\item aaaaaaaaaaaa\x7d")) =
      [{ titles := [("T")], company := ("C"), location := ("L"), dates := ("D"),
         achievements := [("aaaaaaaaaaaa"), ("aaaaaaaaaaaa")] }] ∧
    ¬ ((merge_jobs (parse_experience_tex
        ("\\cventry\x7bT\x7d\x7bC\x7d\x7bL\x7d\x7bD\x7d\x7b\\item aaaaaaaaaaaa \\item aaaaaaaaaaaa\x7d"))).headD
          default).achievements.Nodup := by
  refine ⟨by decide, by decide⟩

/-- C8 amended: every Entry of the final merged collection either has
de-duplicated titles and achievements lists (the case of a bucket merged
from two or more records) or is an input record passed through unmodified
(the sole member of its bucket) — and a passed-through record keeps
whatever duplicates extraction produced, so the unconditional invariant of
the claim fails only on that passthrough case. -/
theorem c8_amended_dedup_or_passthrough :
    ∀ (jobs : List Job) (r : Job), r ∈ merge_jobs jobs →
      (r.titles.Nodup ∧ r.achievements.Nodup) ∨ r ∈ jobs := by
  intro jobs r hrm
  have hperm : (merge_jobs jobs).Perm (mergedGroups jobs) := stableSort_perm _ _
  have hr : r ∈ mergedGroups jobs := hperm.mem_iff.mp hrm
  unfold mergedGroups at hr
  obtain ⟨g, hg, hr1⟩ := List.mem_flatMap.mp hr
  obtain ⟨dg, hdg, hr2⟩ := List.mem_flatMap.mp hr1
  have hdgF := groupByKey_groups (fun j => normalize_dates j.dates) g.2 dg hdg
  have hgF := groupByKey_groups (fun j => j.company) jobs g hg
  rcases mergeGroup_mem_char dg.2 r hr2 with ⟨j, hdj, hrj⟩ | hmulti
  · right
    have hj2 : j ∈ dg.2 := by
      rw [hdj]
      exact List.mem_singleton.mpr rfl
    rw [hdgF] at hj2
    have hj3 := (List.mem_filter.mp hj2).1
    rw [hgF] at hj3
    have hj4 := (List.mem_filter.mp hj3).1
    rw [hrj]
    exact hj4
  · left
    constructor
    · rw [hmulti.2.2.2.2.1]
      exact nodup_pyDedupKeepFirst _
    · rw [hmulti.2.2.2.2.2]
      exact nodup_pyDedupKeepFirst _

/-- C8 amended, witness: a merged two-record bucket produces de-duplicated
lists, and a sole-bucket record is passed through as an input record. -/
theorem c8_amended_dedup_witness :
    (({ titles := [("T")], company := ("C"), location := ("L"), dates := ("D"), achievements := [("aaaaaaaaaaaa"), ("aaaaaaaaaaaa")] } : Job).titles.Nodup ∧
      ({ titles := [("T")], company := ("C"), location := ("L"), dates := ("D"), achievements := [("aaaaaaaaaaaa"), ("aaaaaaaaaaaa")] } : Job).achievements.Nodup) ∨
      ({ titles := [("T")], company := ("C"), location := ("L"), dates := ("D"), achievements := [("aaaaaaaaaaaa"), ("aaaaaaaaaaaa")] } : Job) ∈
        [({ titles := [("T")], company := ("C"), location := ("L"), dates := ("D"), achievements := [("aaaaaaaaaaaa"), ("aaaaaaaaaaaa")] } : Job)] :=
  c8_amended_dedup_or_passthrough
    [({ titles := [("T")], company := ("C"), location := ("L"), dates := ("D"), achievements := [("aaaaaaaaaaaa"), ("aaaaaaaaaaaa")] } : Job)]
    ({ titles := [("T")], company := ("C"), location := ("L"), dates := ("D"), achievements := [("aaaaaaaaaaaa"), ("aaaaaaaaaaaa")] } : Job)
    (by decide)

end CvParser
